import Mathlib

/-!
# Verification of `line_graph` (crate `line-graph`, file `src/lib.rs`)

The crate exposes a single function

  pub fn line_graph<N, E, Ix>(g: &UnGraph<N, E, Ix>) -> UnGraph<E, N, DefaultIx>

over petgraph undirected graphs.  We embed the graphs shallowly:

* a petgraph `UnGraph` with dense indices becomes `Graph N E`: a list of node
  weights (node index = position) and a list of edges (edge index = position),
  each edge holding its two endpoint node indices and its weight;
* `to_index` / `from_index` are the identity on positions in this dense
  setting; petgraph's `g.edges(v)` iterator yields every edge incident to `v`
  exactly once (a self-loop at `v` appears once: petgraph skips self-loops in
  the incoming half of the undirected walk), modelled by `incidentIdx`;
* the three imperative passes of the source (pre-allocate nodes, add the pair
  edges, overwrite the node weights) become folds over explicit build states,
  so that the frame property "the input graph is never touched" is an actual
  theorem about the step functions;
* `Ix: IndexType` is a phantom index-width parameter of the petgraph
  container; we reflect it as a runtime tag `IndexTy` carried next to the
  graph (`GraphIx`).  The source fixes the output parameter to `DefaultIx`,
  which petgraph defines as `u32`.
* the panicking operations of the source (`add_edge`, which panics when an
  endpoint does not exist, and `node_weight_mut(..).unwrap()`) get a checked
  variant returning `Option`; totality of the source is the statement that
  the checked build always returns `some`.

None of the claims depends on petgraph's adjacency iteration *order* (they
are counts, memberships and pair counts, all invariant under the order in
which `g.edges(v)` lists the incident edges), so `incidentIdx` lists incident
edges in increasing index order.
-/

namespace LineGraphVerif

/-- Edge of an undirected multigraph: the two endpoint node indices as stored
(source, target) plus the edge weight. -/
structure Edge (E : Type) where
  src : Nat
  dst : Nat
  weight : E
deriving DecidableEq, Repr

/-- Dense-index undirected multigraph: node index = position in `nodes`,
edge index = position in `edges`. -/
structure Graph (N E : Type) where
  nodes : List N
  edges : List (Edge E)
deriving DecidableEq, Repr

variable {N E : Type}

/-- Edge `e` has `v` as one of its endpoints. -/
def Edge.isIncident (e : Edge E) (v : Nat) : Bool :=
  e.src == v || e.dst == v

/-- Edge lookup by index (petgraph edge id → edge). -/
def edgeAt (g : Graph N E) (i : Nat) : Option (Edge E) :=
  g.edges[i]?

/-- Indices of the edges incident to node `v`, each exactly once, in index
order: the content of petgraph's `g.edges(v)` iterator mapped through
`to_index` (a self-loop at `v` is listed once). -/
def incidentIdx (g : Graph N E) (v : Nat) : List Nat :=
  (List.range g.edges.length).filter fun i =>
    (edgeAt g i).any fun e => e.isIncident v

/-- Number of distinct edges incident to `v` (a self-loop counts once, as in
petgraph's undirected `edges(v)` walk). -/
def degree (g : Graph N E) (v : Nat) : Nat :=
  (incidentIdx g v).length

/-- Unordered-pair enumeration of the source:
`for (s, e1) in it.enumerate() { for e2 in it.skip(s + 1) { ... } }`
pairs each element with every strictly later element. -/
def pairsFrom : List α → List (α × α)
  | [] => []
  | x :: xs => (xs.map fun y => (x, y)) ++ pairsFrom xs

/-- Build state of the imperative construction: the (read-only) input graph
and the output graph under construction. -/
structure BuildState (N E : Type) where
  inp : Graph N E
  out : Graph E N
deriving Repr

/-- Step `line_graph.add_node(w)`: appends a node to the output. -/
def addNode (w : E) (s : BuildState N E) : BuildState N E :=
  { s with out := { s.out with nodes := s.out.nodes ++ [w] } }

/-- Step `line_graph.add_edge(a, b, w)`: appends an edge to the output. -/
def addEdge (a b : Nat) (w : N) (s : BuildState N E) : BuildState N E :=
  { s with out := { s.out with edges := s.out.edges ++ [⟨a, b, w⟩] } }

/-- Step `*line_graph.node_weight_mut(i).unwrap() = w`: overwrites the weight
of output node `i`. -/
def setNodeWeight (i : Nat) (w : E) (s : BuildState N E) : BuildState N E :=
  { s with out := { s.out with nodes := s.out.nodes.set i w } }

/-- Pass 1 of the source: `for _ in 0..g.edge_count() { add_node(default) }`. -/
def pass1 [Inhabited E] (g : Graph N E) : BuildState N E :=
  (List.range g.edges.length).foldl (fun s _ => addNode default s)
    ⟨g, ⟨[], []⟩⟩

/-- Pass 2 of the source: for every node `v` (with weight `nwt`), for every
unordered pair `(e1, e2)` of edges incident to `v` (`skip(s+1)`), add the
output edge `(to_index e1, to_index e2)` weighted `nwt.clone()`. -/
def pass2 (g : Graph N E) (s : BuildState N E) : BuildState N E :=
  g.nodes.enum.foldl
    (fun s vn =>
      (pairsFrom (incidentIdx g vn.1)).foldl
        (fun s pq => addEdge pq.1 pq.2 vn.2 s) s)
    s

/-- Pass 3 of the source: for every edge (index `i`, weight `w`) of `g`, set
the weight of output node `i` to `w.clone()`. -/
def pass3 (g : Graph N E) (s : BuildState N E) : BuildState N E :=
  g.edges.enum.foldl (fun s ie => setNodeWeight ie.1 ie.2.weight s) s

/-- Whole run of `line_graph`: the three passes in order, starting from the
input graph and an empty output. -/
def lineGraphRun [Inhabited E] (g : Graph N E) : BuildState N E :=
  pass3 g (pass2 g (pass1 g))

/-- The function `line_graph`: the output graph built by the run. -/
def lineGraph [Inhabited E] (g : Graph N E) : Graph E N :=
  (lineGraphRun g).out

/-- Edge list of the line graph, written directly: one block per input node,
each block one output edge per unordered pair of incident edges. -/
def lineGraphEdges (g : Graph N E) : List (Edge N) :=
  g.nodes.enum.flatMap fun vn =>
    (pairsFrom (incidentIdx g vn.1)).map fun pq => ⟨pq.1, pq.2, vn.2⟩

/-- Indices written by pass 3 (the targets of `node_weight_mut`), in order. -/
def writeIndices (g : Graph N E) : List Nat :=
  g.edges.enum.map Prod.fst

/-- Number of output edges contributed by source node `v`: the length of the
block of pairs enumerated at `v` in pass 2. -/
def contributedCount (g : Graph N E) (v : Nat) : Nat :=
  (pairsFrom (incidentIdx g v)).length

/-- Number of edges between output nodes `i` and `j` (either orientation). -/
def countBetween (g : Graph E N) (i j : Nat) : Nat :=
  g.edges.countP fun o => (o.src == i && o.dst == j) || (o.src == j && o.dst == i)

/-- Nodes of `g` that are endpoints of both edge `i` and edge `j`. -/
def sharedEndpoints (g : Graph N E) (i j : Nat) : List Nat :=
  (List.range g.nodes.length).filter fun v =>
    ((edgeAt g i).any fun e => e.isIncident v) &&
    ((edgeAt g j).any fun e => e.isIncident v)

/-- Edge `e` joins exactly the nodes `a` and `b` (in either stored order). -/
def endpointsAre (e : Edge E) (a b : Nat) : Prop :=
  (e.src = a ∧ e.dst = b) ∨ (e.src = b ∧ e.dst = a)

instance (e : Edge E) (a b : Nat) : Decidable (endpointsAre e a b) := by
  unfold endpointsAre; infer_instance

/-- Every edge endpoint names an existing node (petgraph container invariant). -/
def wellFormed (g : Graph N E) : Prop :=
  ∀ e ∈ g.edges, e.src < g.nodes.length ∧ e.dst < g.nodes.length

instance (g : Graph N E) : Decidable (wellFormed g) := by
  unfold wellFormed; infer_instance

/-- Checked `add_edge`: petgraph panics when an endpoint node does not exist. -/
def addEdgeChecked (a b : Nat) (w : N) (s : BuildState N E) :
    Option (BuildState N E) :=
  if a < s.out.nodes.length ∧ b < s.out.nodes.length then
    some (addEdge a b w s)
  else
    none

/-- Checked weight overwrite: `node_weight_mut` returns `None` (and the
source's `unwrap()` panics) when the node index is out of range. -/
def setNodeWeightChecked (i : Nat) (w : E) (s : BuildState N E) :
    Option (BuildState N E) :=
  if i < s.out.nodes.length then some (setNodeWeight i w s) else none

/-- Pass 2 with the panicking operation made explicit. -/
def pass2Checked (g : Graph N E) (s : BuildState N E) :
    Option (BuildState N E) :=
  g.nodes.enum.foldl
    (fun s vn =>
      (pairsFrom (incidentIdx g vn.1)).foldl
        (fun s pq => s.bind (addEdgeChecked pq.1 pq.2 vn.2)) s)
    (some s)

/-- Pass 3 with the panicking operation made explicit. -/
def pass3Checked (g : Graph N E) (s : BuildState N E) :
    Option (BuildState N E) :=
  g.edges.enum.foldl
    (fun s ie => s.bind (setNodeWeightChecked ie.1 ie.2.weight)) (some s)

/-- Whole run with every panicking operation checked: `none` means the source
would have panicked. -/
def lineGraphChecked [Inhabited E] (g : Graph N E) : Option (Graph E N) :=
  (pass2Checked g (pass1 g)).bind fun s =>
    (pass3Checked g s).map fun s => s.out

/-- Index-width parameter of the petgraph container (`Ix: IndexType`). -/
inductive IndexTy : Type where
  | u8
  | u16
  | u32
  | usize
deriving DecidableEq, Repr

/-- Petgraph's `DefaultIx` is `u32`. -/
def defaultIx : IndexTy := IndexTy.u32

/-- Graph together with the index-width parameter of its container type. -/
structure GraphIx (N E : Type) extends Graph N E where
  ixTy : IndexTy

/-- The function `line_graph` with the container index parameter made visible:
the signature returns `UnGraph<E, N, DefaultIx>` whatever the input `Ix` is. -/
def lineGraphIx [Inhabited E] (g : GraphIx N E) : GraphIx E N :=
  { toGraph := lineGraph g.toGraph, ixTy := defaultIx }

/-- Triangle graph used as a concrete test input: three nodes (weights 10,
20, 30) and edges 0–1, 1–2, 2–0 (weights 5, 6, 7). -/
def triangle : Graph Nat Nat :=
  ⟨[10, 20, 30], [⟨0, 1, 5⟩, ⟨1, 2, 6⟩, ⟨2, 0, 7⟩]⟩

/-- Dipole graph of the spec: two nodes joined by three parallel edges. -/
def dipole : Graph Nat Nat :=
  ⟨[10, 20], [⟨0, 1, 5⟩, ⟨0, 1, 6⟩, ⟨0, 1, 7⟩]⟩

/-- Two parallel edges between two nodes. -/
def twoParallel : Graph Nat Nat :=
  ⟨[10, 20], [⟨0, 1, 5⟩, ⟨0, 1, 6⟩]⟩

/-- Two self-loops at a single node. -/
def twoLoops : Graph Nat Nat :=
  ⟨[10], [⟨0, 0, 5⟩, ⟨0, 0, 6⟩]⟩

/-! ## Lemmas about the pair enumeration -/

theorem length_pairsFrom (l : List α) : (pairsFrom l).length = l.length.choose 2 := by
  induction l with
  | nil => rfl
  | cons x xs ih =>
      simp only [pairsFrom, List.length_append, List.length_map, ih, List.length_cons]
      rw [Nat.choose_succ_succ, Nat.choose_one_right]

theorem pairwise_pairsFrom {R : α → α → Prop} :
    ∀ {l : List α}, l.Pairwise R → ∀ pq ∈ pairsFrom l, R pq.1 pq.2 := by
  intro l
  induction l with
  | nil => intro _ pq h; simp [pairsFrom] at h
  | cons x xs ih =>
      intro hp pq hpq
      rw [List.pairwise_cons] at hp
      simp only [pairsFrom, List.mem_append, List.mem_map] at hpq
      rcases hpq with ⟨y, hy, rfl⟩ | hpq
      · exact hp.1 y hy
      · exact ih hp.2 pq hpq

theorem mem_of_mem_pairsFrom :
    ∀ {l : List α} {pq : α × α}, pq ∈ pairsFrom l → pq.1 ∈ l ∧ pq.2 ∈ l := by
  intro l
  induction l with
  | nil => intro pq h; simp [pairsFrom] at h
  | cons x xs ih =>
      intro pq hpq
      simp only [pairsFrom, List.mem_append, List.mem_map] at hpq
      rcases hpq with ⟨y, hy, rfl⟩ | hpq
      · exact ⟨List.mem_cons_self _ _, List.mem_cons_of_mem _ hy⟩
      · rcases ih hpq with ⟨h1, h2⟩
        exact ⟨List.mem_cons_of_mem _ h1, List.mem_cons_of_mem _ h2⟩

theorem countP_beq_of_nodup :
    ∀ {l : List Nat}, l.Nodup → ∀ (a : Nat),
      (l.countP fun y => y == a) = if a ∈ l then 1 else 0 := by
  intro l
  induction l with
  | nil => intro _ a; simp
  | cons x xs ih =>
      intro hnd a
      rw [List.nodup_cons] at hnd
      rw [List.countP_cons, ih hnd.2 a]
      by_cases hxa : x = a
      · have haxs : a ∉ xs := hxa ▸ hnd.1
        have hmem : a ∈ x :: xs := by rw [← hxa]; exact List.mem_cons_self x xs
        simp [haxs, hmem, hxa]
      · have hne : a = x → False := fun h => hxa h.symm
        have hiff : (a = x ∨ a ∈ xs) ↔ a ∈ xs :=
          ⟨fun h => h.resolve_left hne, Or.inr⟩
        simp only [List.mem_cons, hxa, hiff, beq_iff_eq, if_false, Nat.add_zero]

theorem countP_pairsFrom :
    ∀ (l : List Nat), l.Nodup → ∀ {i j : Nat}, i ≠ j →
      ((pairsFrom l).countP fun pq =>
        (pq.1 == i && pq.2 == j) || (pq.1 == j && pq.2 == i))
        = if i ∈ l ∧ j ∈ l then 1 else 0 := by
  intro l
  induction l with
  | nil => intro _ i j _; simp [pairsFrom]
  | cons x xs ih =>
      intro hnd i j hij
      rw [List.nodup_cons] at hnd
      simp only [pairsFrom, List.countP_append, List.countP_map, Function.comp_def]
      rw [ih hnd.2 hij]
      by_cases hxi : x = i
      · have hxj : x ≠ j := fun h => hij (hxi ▸ h)
        have hixs : i ∉ xs := hxi ▸ hnd.1
        have hmi : i ∈ x :: xs := by rw [← hxi]; exact List.mem_cons_self x xs
        have hcount :
            (xs.countP fun y => (x == i && y == j) || (x == j && y == i))
              = xs.countP fun y => y == j := by
          apply List.countP_congr
          intro y _
          have h1 : (x == i) = true := beq_iff_eq.mpr hxi
          have h2 : (x == j) = false := beq_eq_false_iff_ne.mpr hxj
          rw [h1, h2, Bool.true_and, Bool.false_and, Bool.or_false]
        rw [hcount, countP_beq_of_nodup hnd.2 j]
        by_cases hjxs : j ∈ xs
        · rw [if_pos hjxs, if_neg (fun h => hixs h.1),
            if_pos ⟨hmi, List.mem_cons_of_mem _ hjxs⟩]
        · have hjc : j ∉ x :: xs := by
            rw [List.mem_cons]
            push_neg
            exact ⟨fun h => hxj h.symm, hjxs⟩
          rw [if_neg hjxs, if_neg (fun h => hixs h.1), if_neg (fun h => hjc h.2)]
      · by_cases hxj : x = j
        · have hjxs : j ∉ xs := hxj ▸ hnd.1
          have hmj : j ∈ x :: xs := by rw [← hxj]; exact List.mem_cons_self x xs
          have hcount :
              (xs.countP fun y => (x == i && y == j) || (x == j && y == i))
                = xs.countP fun y => y == i := by
            apply List.countP_congr
            intro y _
            have h1 : (x == j) = true := beq_iff_eq.mpr hxj
            have h2 : (x == i) = false := beq_eq_false_iff_ne.mpr hxi
            rw [h1, h2, Bool.false_and, Bool.true_and, Bool.false_or]
          rw [hcount, countP_beq_of_nodup hnd.2 i]
          by_cases hixs : i ∈ xs
          · rw [if_pos hixs, if_neg (fun h => hjxs h.2),
              if_pos ⟨List.mem_cons_of_mem _ hixs, hmj⟩]
          · have hic : i ∉ x :: xs := by
              rw [List.mem_cons]
              push_neg
              exact ⟨fun h => hxi h.symm, hixs⟩
            rw [if_neg hixs, if_neg (fun h => hjxs h.2), if_neg (fun h => hic h.1)]
        · have hcount :
              (xs.countP fun y => (x == i && y == j) || (x == j && y == i)) = 0 := by
            rw [List.countP_eq_zero]
            intro y _
            have h1 : (x == i) = false := beq_eq_false_iff_ne.mpr hxi
            have h2 : (x == j) = false := beq_eq_false_iff_ne.mpr hxj
            rw [h1, h2, Bool.false_and, Bool.false_and, Bool.or_self]
            simp
          rw [hcount]
          have hmic : i ∈ x :: xs ↔ i ∈ xs := by
            rw [List.mem_cons]
            constructor
            · rintro (h | h)
              · exact absurd h.symm hxi
              · exact h
            · exact Or.inr
          have hmjc : j ∈ x :: xs ↔ j ∈ xs := by
            rw [List.mem_cons]
            constructor
            · rintro (h | h)
              · exact absurd h.symm hxj
              · exact h
            · exact Or.inr
          rw [Nat.zero_add]
          simp only [hmic, hmjc]

/-! ## Lemmas about incident-edge enumeration -/

theorem mem_incidentIdx_iff_any {g : Graph N E} {v i : Nat} :
    i ∈ incidentIdx g v ↔ ((edgeAt g i).any fun e => e.isIncident v) = true := by
  constructor
  · intro h
    exact (List.mem_filter.mp h).2
  · intro h
    apply List.mem_filter.mpr
    refine ⟨List.mem_range.mpr ?_, h⟩
    rcases ho : edgeAt g i with _ | e
    · rw [ho] at h; simp [Option.any] at h
    · exact (List.getElem?_eq_some.mp ho).1

theorem mem_incidentIdx {g : Graph N E} {v i : Nat} :
    i ∈ incidentIdx g v ↔
      ∃ h : i < g.edges.length, (g.edges.get ⟨i, h⟩).isIncident v = true := by
  rw [mem_incidentIdx_iff_any]
  constructor
  · intro h
    rcases ho : edgeAt g i with _ | e
    · rw [ho] at h; simp [Option.any] at h
    · rw [ho] at h
      simp only [Option.any] at h
      rcases List.getElem?_eq_some.mp ho with ⟨hlt, he⟩
      refine ⟨hlt, ?_⟩
      rw [List.get_eq_getElem, he]
      exact h
  · rintro ⟨hlt, hinc⟩
    have ho : edgeAt g i = some (g.edges.get ⟨i, hlt⟩) := by
      unfold edgeAt
      rw [List.getElem?_eq_getElem hlt]
      simp
    rw [ho]
    simpa [Option.any] using hinc

theorem lt_of_mem_incidentIdx {g : Graph N E} {v i : Nat}
    (h : i ∈ incidentIdx g v) : i < g.edges.length :=
  List.mem_range.mp (List.mem_filter.mp h).1

theorem nodup_incidentIdx (g : Graph N E) (v : Nat) : (incidentIdx g v).Nodup :=
  (List.nodup_range _).filter _

theorem pairwise_lt_incidentIdx (g : Graph N E) (v : Nat) :
    (incidentIdx g v).Pairwise (· < ·) :=
  List.Pairwise.filter _ (List.pairwise_lt_range _)

/-! ## The three passes of the construction -/

theorem foldl_addNode_out (d : E) :
    ∀ (l : List Nat) (s : BuildState N E),
      (l.foldl (fun s _ => addNode d s) s).out.nodes
          = s.out.nodes ++ List.replicate l.length d ∧
      (l.foldl (fun s _ => addNode d s) s).out.edges = s.out.edges := by
  intro l
  induction l with
  | nil => intro s; simp
  | cons x xs ih =>
      intro s
      rw [List.foldl_cons]
      rcases ih (addNode d s) with ⟨h1, h2⟩
      refine ⟨?_, h2⟩
      rw [h1]
      simp [addNode, List.replicate_succ]

theorem pass1_out_nodes [Inhabited E] (g : Graph N E) :
    (pass1 g).out.nodes = List.replicate g.edges.length (default : E) := by
  unfold pass1
  rcases foldl_addNode_out (default : E) (List.range g.edges.length)
    ⟨g, ⟨[], []⟩⟩ with ⟨h, _⟩
  rw [h]
  simp

theorem pass1_out_edges [Inhabited E] (g : Graph N E) :
    (pass1 g).out.edges = [] := by
  unfold pass1
  exact (foldl_addNode_out (default : E) (List.range g.edges.length)
    ⟨g, ⟨[], []⟩⟩).2

theorem foldl_addEdge_out (w : N) :
    ∀ (l : List (Nat × Nat)) (s : BuildState N E),
      (l.foldl (fun s pq => addEdge pq.1 pq.2 w s) s).out.edges
          = s.out.edges ++ (l.map fun pq => (⟨pq.1, pq.2, w⟩ : Edge N)) ∧
      (l.foldl (fun s pq => addEdge pq.1 pq.2 w s) s).out.nodes = s.out.nodes := by
  intro l
  induction l with
  | nil => intro s; simp
  | cons x xs ih =>
      intro s
      rw [List.foldl_cons]
      rcases ih (addEdge x.1 x.2 w s) with ⟨h1, h2⟩
      refine ⟨?_, h2⟩
      rw [h1]
      simp [addEdge]

theorem foldl_pass2_out (g : Graph N E) :
    ∀ (l : List (Nat × N)) (s : BuildState N E),
      (l.foldl
          (fun s vn =>
            (pairsFrom (incidentIdx g vn.1)).foldl
              (fun s pq => addEdge pq.1 pq.2 vn.2 s) s) s).out.edges
        = s.out.edges
          ++ (l.flatMap fun vn =>
                (pairsFrom (incidentIdx g vn.1)).map fun pq =>
                  (⟨pq.1, pq.2, vn.2⟩ : Edge N)) ∧
      (l.foldl
          (fun s vn =>
            (pairsFrom (incidentIdx g vn.1)).foldl
              (fun s pq => addEdge pq.1 pq.2 vn.2 s) s) s).out.nodes
        = s.out.nodes := by
  intro l
  induction l with
  | nil => intro s; simp
  | cons vn l ih =>
      intro s
      rw [List.foldl_cons]
      rcases ih ((pairsFrom (incidentIdx g vn.1)).foldl
        (fun s pq => addEdge pq.1 pq.2 vn.2 s) s) with ⟨h1, h2⟩
      rcases foldl_addEdge_out vn.2 (pairsFrom (incidentIdx g vn.1)) s with ⟨h3, h4⟩
      constructor
      · rw [h1, h3, List.flatMap_cons, List.append_assoc]
      · rw [h2, h4]

theorem pass2_out_edges (g : Graph N E) (s : BuildState N E) :
    (pass2 g s).out.edges = s.out.edges ++ lineGraphEdges g :=
  (foldl_pass2_out g g.nodes.enum s).1

theorem pass2_out_nodes (g : Graph N E) (s : BuildState N E) :
    (pass2 g s).out.nodes = s.out.nodes :=
  (foldl_pass2_out g g.nodes.enum s).2

theorem foldl_setNodeWeight_out :
    ∀ (es : List (Edge E)) (k : Nat) (s : BuildState N E),
      s.out.nodes.length = k + es.length →
      ((List.enumFrom k es).foldl
          (fun s ie => setNodeWeight ie.1 ie.2.weight s) s).out.nodes
        = s.out.nodes.take k ++ (es.map fun e => e.weight) ∧
      ((List.enumFrom k es).foldl
          (fun s ie => setNodeWeight ie.1 ie.2.weight s) s).out.edges
        = s.out.edges := by
  intro es
  induction es with
  | nil =>
      intro k s hk
      have hk0 : s.out.nodes.length = k := by simpa using hk
      rw [List.enumFrom_nil, List.foldl_nil, List.map_nil, List.append_nil,
        List.take_of_length_le (le_of_eq hk0)]
      exact ⟨rfl, rfl⟩
  | cons e es ih =>
      intro k s hk
      have hklt : k < s.out.nodes.length := by
        rw [hk, List.length_cons]; omega
      rw [List.enumFrom_cons, List.foldl_cons]
      have hlen : (setNodeWeight k e.weight s).out.nodes.length = (k + 1) + es.length := by
        simp only [setNodeWeight, List.length_set]
        rw [hk, List.length_cons]
        omega
      rcases ih (k + 1) (setNodeWeight k e.weight s) hlen with ⟨h1, h2⟩
      refine ⟨?_, h2⟩
      have hset : (setNodeWeight k e.weight s).out.nodes
          = s.out.nodes.set k e.weight := rfl
      have htk : (s.out.nodes.take k).length = k := by
        rw [List.length_take]
        omega
      have h1k : k + 1 - k = 1 := by omega
      have key : (s.out.nodes.set k e.weight).take (k + 1)
          = s.out.nodes.take k ++ [e.weight] := by
        rw [List.set_eq_take_cons_drop e.weight hklt, List.take_append_eq_append_take,
          htk, h1k, List.take_of_length_le (by rw [htk]; omega)]
        simp
      rw [h1, hset, key, List.map_cons, List.append_assoc, List.singleton_append]

theorem pass3_out_nodes (g : Graph N E) (s : BuildState N E)
    (h : s.out.nodes.length = g.edges.length) :
    (pass3 g s).out.nodes = g.edges.map fun e => e.weight := by
  unfold pass3
  have he : g.edges.enum = List.enumFrom 0 g.edges := rfl
  rw [he]
  rcases foldl_setNodeWeight_out g.edges 0 s (by omega) with ⟨h1, _⟩
  rw [h1, List.take_zero, List.nil_append]

theorem pass3_out_edges (g : Graph N E) (s : BuildState N E)
    (h : s.out.nodes.length = g.edges.length) :
    (pass3 g s).out.edges = s.out.edges := by
  unfold pass3
  have he : g.edges.enum = List.enumFrom 0 g.edges := rfl
  rw [he]
  exact (foldl_setNodeWeight_out g.edges 0 s (by omega)).2

theorem pass2_nodes_length [Inhabited E] (g : Graph N E) :
    (pass2 g (pass1 g)).out.nodes.length = g.edges.length := by
  rw [pass2_out_nodes, pass1_out_nodes, List.length_replicate]

theorem lineGraph_nodes [Inhabited E] (g : Graph N E) :
    (lineGraph g).nodes = g.edges.map fun e => e.weight := by
  unfold lineGraph lineGraphRun
  exact pass3_out_nodes g _ (pass2_nodes_length g)

theorem lineGraph_edges [Inhabited E] (g : Graph N E) :
    (lineGraph g).edges = lineGraphEdges g := by
  unfold lineGraph lineGraphRun
  rw [pass3_out_edges g _ (pass2_nodes_length g), pass2_out_edges,
    pass1_out_edges, List.nil_append]

theorem lineGraph_nodes_length [Inhabited E] (g : Graph N E) :
    (lineGraph g).nodes.length = g.edges.length := by
  rw [lineGraph_nodes, List.length_map]

/-! ## Frame: no step touches the input graph -/

theorem foldl_inp {α : Type} (f : BuildState N E → α → BuildState N E)
    (hf : ∀ s a, (f s a).inp = s.inp) :
    ∀ (l : List α) (s : BuildState N E), (l.foldl f s).inp = s.inp := by
  intro l
  induction l with
  | nil => intro s; rfl
  | cons x xs ih =>
      intro s
      rw [List.foldl_cons, ih (f s x), hf]

theorem addNode_inp (w : E) (s : BuildState N E) : (addNode w s).inp = s.inp := rfl

theorem addEdge_inp (a b : Nat) (w : N) (s : BuildState N E) :
    (addEdge a b w s).inp = s.inp := rfl

theorem setNodeWeight_inp (i : Nat) (w : E) (s : BuildState N E) :
    (setNodeWeight i w s).inp = s.inp := rfl

theorem pass1_inp [Inhabited E] (g : Graph N E) : (pass1 g).inp = g := by
  unfold pass1
  apply foldl_inp
  intro s a
  rfl

theorem pass2_inp (g : Graph N E) (s : BuildState N E) : (pass2 g s).inp = s.inp := by
  unfold pass2
  apply foldl_inp
  intro s vn
  apply foldl_inp
  intro s pq
  rfl

theorem pass3_inp (g : Graph N E) (s : BuildState N E) : (pass3 g s).inp = s.inp := by
  unfold pass3
  apply foldl_inp
  intro s ie
  rfl

theorem lineGraphRun_inp [Inhabited E] (g : Graph N E) :
    (lineGraphRun g).inp = g := by
  unfold lineGraphRun
  rw [pass3_inp, pass2_inp, pass1_inp]

/-! ## Counting the output edges between two given output nodes -/

theorem sum_map_cond_eq_countP (q : Nat → Bool) :
    ∀ l : List Nat, (l.map fun v => cond (q v) 1 0).sum = l.countP q := by
  intro l
  induction l with
  | nil => simp
  | cons x xs ih =>
      rw [List.map_cons, List.sum_cons, ih, List.countP_cons]
      rcases hx : q x
      · rw [if_neg (by simp)]
        simp
      · rw [if_pos rfl]
        simp only [Bool.cond_true]
        omega

theorem countBetween_lineGraph [Inhabited E] (g : Graph N E) {i j : Nat}
    (hij : i ≠ j) :
    countBetween (lineGraph g) i j = (sharedEndpoints g i j).length := by
  unfold countBetween
  rw [lineGraph_edges]
  unfold lineGraphEdges
  rw [List.countP_flatMap]
  have hblock : ∀ vn : Nat × N,
      (List.countP
          (fun o => (o.src == i && o.dst == j) || (o.src == j && o.dst == i))
          ((pairsFrom (incidentIdx g vn.1)).map fun pq =>
            (⟨pq.1, pq.2, vn.2⟩ : Edge N)))
        = if i ∈ incidentIdx g vn.1 ∧ j ∈ incidentIdx g vn.1 then 1 else 0 := by
    intro vn
    rw [List.countP_map]
    exact countP_pairsFrom _ (nodup_incidentIdx g vn.1) hij
  have hcond : ∀ v : Nat,
      (if i ∈ incidentIdx g v ∧ j ∈ incidentIdx g v then 1 else 0)
        = cond (((edgeAt g i).any fun e => e.isIncident v)
            && ((edgeAt g j).any fun e => e.isIncident v)) 1 0 := by
    intro v
    by_cases hc : i ∈ incidentIdx g v ∧ j ∈ incidentIdx g v
    · rw [if_pos hc]
      have hq : (((edgeAt g i).any fun e => e.isIncident v)
          && ((edgeAt g j).any fun e => e.isIncident v)) = true := by
        rw [Bool.and_eq_true]
        exact ⟨mem_incidentIdx_iff_any.mp hc.1, mem_incidentIdx_iff_any.mp hc.2⟩
      rw [hq, Bool.cond_true]
    · rw [if_neg hc]
      have hq : ¬ (((edgeAt g i).any fun e => e.isIncident v)
          && ((edgeAt g j).any fun e => e.isIncident v)) = true := by
        rw [Bool.and_eq_true]
        intro h
        exact hc ⟨mem_incidentIdx_iff_any.mpr h.1, mem_incidentIdx_iff_any.mpr h.2⟩
      rw [Bool.not_eq_true] at hq
      rw [hq, Bool.cond_false]
  have hmapc :
      (g.nodes.enum.map
          (List.countP
            (fun o => (o.src == i && o.dst == j) || (o.src == j && o.dst == i))
            ∘ fun vn => (pairsFrom (incidentIdx g vn.1)).map fun pq =>
              (⟨pq.1, pq.2, vn.2⟩ : Edge N)))
        = g.nodes.enum.map
            ((fun v => cond (((edgeAt g i).any fun e => e.isIncident v)
                && ((edgeAt g j).any fun e => e.isIncident v)) 1 0)
              ∘ Prod.fst) := by
    apply List.map_congr_left
    intro vn _
    rw [Function.comp_apply, Function.comp_apply, ← hcond vn.1]
    exact hblock vn
  rw [hmapc, ← List.map_map, List.enum_map_fst]
  rw [sum_map_cond_eq_countP]
  unfold sharedEndpoints
  rw [List.countP_eq_length_filter]

/-! ## The checked run never hits a panicking operation -/

theorem foldl_addEdgeChecked (g : Graph N E) (w : N) :
    ∀ (ps : List (Nat × Nat)) (s : BuildState N E),
      (∀ pq ∈ ps, pq.1 < g.edges.length ∧ pq.2 < g.edges.length) →
      s.out.nodes.length = g.edges.length →
      (ps.foldl (fun s pq => s.bind (addEdgeChecked pq.1 pq.2 w)) (some s))
        = some (ps.foldl (fun s pq => addEdge pq.1 pq.2 w s) s) := by
  intro ps
  induction ps with
  | nil => intro s _ _; rfl
  | cons pq ps ih =>
      intro s hmem hlen
      rw [List.foldl_cons, List.foldl_cons, Option.some_bind]
      unfold addEdgeChecked
      rw [if_pos (by rw [hlen]; exact hmem pq (List.mem_cons_self _ _))]
      apply ih
      · intro q hq
        exact hmem q (List.mem_cons_of_mem _ hq)
      · exact hlen

theorem foldl_pass2Checked (g : Graph N E) :
    ∀ (l : List (Nat × N)) (s : BuildState N E),
      s.out.nodes.length = g.edges.length →
      (l.foldl
          (fun s vn =>
            (pairsFrom (incidentIdx g vn.1)).foldl
              (fun s pq => s.bind (addEdgeChecked pq.1 pq.2 vn.2)) s) (some s))
        = some (l.foldl
            (fun s vn =>
              (pairsFrom (incidentIdx g vn.1)).foldl
                (fun s pq => addEdge pq.1 pq.2 vn.2 s) s) s) := by
  intro l
  induction l with
  | nil => intro s _; rfl
  | cons vn l ih =>
      intro s hlen
      rw [List.foldl_cons, List.foldl_cons]
      have hmem : ∀ pq ∈ pairsFrom (incidentIdx g vn.1),
          pq.1 < g.edges.length ∧ pq.2 < g.edges.length := by
        intro pq hpq
        rcases mem_of_mem_pairsFrom hpq with ⟨h1, h2⟩
        exact ⟨lt_of_mem_incidentIdx h1, lt_of_mem_incidentIdx h2⟩
      rw [foldl_addEdgeChecked g vn.2 _ s hmem hlen]
      apply ih
      rw [(foldl_addEdge_out vn.2 _ s).2]
      exact hlen

theorem pass2Checked_eq (g : Graph N E) (s : BuildState N E)
    (hlen : s.out.nodes.length = g.edges.length) :
    pass2Checked g s = some (pass2 g s) := by
  unfold pass2Checked pass2
  exact foldl_pass2Checked g g.nodes.enum s hlen

theorem foldl_setChecked :
    ∀ (es : List (Edge E)) (k : Nat) (s : BuildState N E),
      k + es.length ≤ s.out.nodes.length →
      ((List.enumFrom k es).foldl
          (fun s ie => s.bind (setNodeWeightChecked ie.1 ie.2.weight)) (some s))
        = some ((List.enumFrom k es).foldl
            (fun s ie => setNodeWeight ie.1 ie.2.weight s) s) := by
  intro es
  induction es with
  | nil => intro k s _; rfl
  | cons e es ih =>
      intro k s h
      rw [List.length_cons] at h
      rw [List.enumFrom_cons, List.foldl_cons, List.foldl_cons, Option.some_bind]
      unfold setNodeWeightChecked
      rw [if_pos (by omega)]
      apply ih
      have hpres : (setNodeWeight k e.weight s).out.nodes.length
          = s.out.nodes.length := by
        simp [setNodeWeight]
      rw [hpres]
      omega

theorem pass3Checked_eq (g : Graph N E) (s : BuildState N E)
    (hlen : g.edges.length ≤ s.out.nodes.length) :
    pass3Checked g s = some (pass3 g s) := by
  unfold pass3Checked pass3
  have he : g.edges.enum = List.enumFrom 0 g.edges := rfl
  rw [he]
  exact foldl_setChecked g.edges 0 s (by omega)

theorem lineGraphChecked_eq [Inhabited E] (g : Graph N E) :
    lineGraphChecked g = some (lineGraph g) := by
  unfold lineGraphChecked
  rw [pass2Checked_eq g (pass1 g) (by rw [pass1_out_nodes, List.length_replicate]),
    Option.some_bind,
    pass3Checked_eq g (pass2 g (pass1 g)) (le_of_eq (pass2_nodes_length g).symm)]
  rfl

/-! ## Remaining helper lemmas -/

theorem beq_nat_comm (a b : Nat) : (a == b) = (b == a) := by
  by_cases h : a = b
  · rw [h]
  · rw [beq_eq_false_iff_ne.mpr h, beq_eq_false_iff_ne.mpr (Ne.symm h)]

theorem countP_or_disjoint (p q : Nat → Bool) :
    ∀ l : List Nat, (∀ x ∈ l, ¬(p x = true ∧ q x = true)) →
      (l.countP fun x => p x || q x) = l.countP p + l.countP q := by
  intro l
  induction l with
  | nil => intro _; rfl
  | cons x xs ih =>
      intro h
      rw [List.countP_cons, List.countP_cons, List.countP_cons,
        ih (fun y hy => h y (List.mem_cons_of_mem _ hy))]
      rcases hp : p x <;> rcases hq : q x
      · simp
      · simp
        omega
      · simp
        omega
      · exact absurd ⟨hp, hq⟩ (h x (List.mem_cons_self _ _))

theorem edgeAt_eq_some {g : Graph N E} {i : Nat} (h : i < g.edges.length) :
    edgeAt g i = some (g.edges.get ⟨i, h⟩) := by
  unfold edgeAt
  rw [List.getElem?_eq_getElem h]
  rfl

/-! ## The claims -/

/-- C1. Node-count law: for every input graph `g`, the graph returned by
`line_graph` has exactly as many nodes as `g` has edges. -/
theorem claim_node_count_law [Inhabited E] (g : Graph N E) :
    (lineGraph g).nodes.length = g.edges.length :=
  lineGraph_nodes_length g

/-- C2. Weight round-trip: the output node at each edge index (the
edge-index-to-node-index bijection is the identity on dense indices) carries
exactly that input edge's weight; indices out of range are absent on both
sides. -/
theorem claim_weight_round_trip [Inhabited E] (g : Graph N E) (i : Nat) :
    (lineGraph g).nodes[i]? = (g.edges[i]?).map fun e => e.weight := by
  rw [lineGraph_nodes, List.getElem?_map]

/-- C3. Edge-weight correspondence: every output edge's weight equals the
weight of some input node that is a shared endpoint of the two input edges
named by the output edge's endpoints. -/
theorem claim_edge_weight_correspondence [Inhabited E] (g : Graph N E)
    (o : Edge N) (ho : o ∈ (lineGraph g).edges) :
    ∃ v, ∃ hv : v < g.nodes.length,
      o.weight = g.nodes.get ⟨v, hv⟩ ∧
      ∃ hs : o.src < g.edges.length, ∃ hd : o.dst < g.edges.length,
        (g.edges.get ⟨o.src, hs⟩).isIncident v = true ∧
        (g.edges.get ⟨o.dst, hd⟩).isIncident v = true := by
  rw [lineGraph_edges] at ho
  unfold lineGraphEdges at ho
  rw [List.mem_flatMap] at ho
  rcases ho with ⟨vn, hvn, ho⟩
  rw [List.mem_map] at ho
  rcases ho with ⟨pq, hpq, rfl⟩
  rcases mem_of_mem_pairsFrom hpq with ⟨h1, h2⟩
  rcases mem_incidentIdx.mp h1 with ⟨hs, hinc1⟩
  rcases mem_incidentIdx.mp h2 with ⟨hd, hinc2⟩
  rcases List.getElem?_eq_some.mp (List.mem_enum_iff_getElem?.mp hvn) with ⟨hvlt, hveq⟩
  refine ⟨vn.1, hvlt, ?_, hs, hd, hinc1, hinc2⟩
  show vn.2 = g.nodes.get ⟨vn.1, hvlt⟩
  rw [List.get_eq_getElem, hveq]

/-- C3 witness: a concrete output edge of the triangle's line graph, with the
theorem applied to it. -/
theorem claim_edge_weight_correspondence_witness :
    (⟨0, 2, 10⟩ : Edge Nat) ∈ (lineGraph triangle).edges ∧
    (∃ v, ∃ hv : v < triangle.nodes.length,
      (⟨0, 2, 10⟩ : Edge Nat).weight = triangle.nodes.get ⟨v, hv⟩ ∧
      ∃ hs : (⟨0, 2, 10⟩ : Edge Nat).src < triangle.edges.length,
        ∃ hd : (⟨0, 2, 10⟩ : Edge Nat).dst < triangle.edges.length,
          (triangle.edges.get ⟨(⟨0, 2, 10⟩ : Edge Nat).src, hs⟩).isIncident v = true ∧
          (triangle.edges.get ⟨(⟨0, 2, 10⟩ : Edge Nat).dst, hd⟩).isIncident v = true) :=
  ⟨by decide, claim_edge_weight_correspondence triangle ⟨0, 2, 10⟩ (by decide)⟩

/-- C4. Degree-sum law: each source node `v` contributes `C(deg v, 2)` output
edges (degree = number of distinct incident edges, self-loops and parallel
edges each counted once), and the total output edge count is the sum of these
binomials over all nodes. -/
theorem claim_degree_sum_law [Inhabited E] (g : Graph N E) :
    (∀ v, contributedCount g v = (degree g v).choose 2) ∧
    (lineGraph g).edges.length
      = ((List.range g.nodes.length).map fun v => (degree g v).choose 2).sum := by
  constructor
  · intro v
    unfold contributedCount degree
    exact length_pairsFrom _
  · rw [lineGraph_edges]
    unfold lineGraphEdges
    rw [List.length_flatMap]
    have hmap :
        (g.nodes.enum.map
            (List.length ∘ fun vn => (pairsFrom (incidentIdx g vn.1)).map fun pq =>
              (⟨pq.1, pq.2, vn.2⟩ : Edge N)))
          = g.nodes.enum.map ((fun v => (degree g v).choose 2) ∘ Prod.fst) := by
      apply List.map_congr_left
      intro vn _
      rw [Function.comp_apply, Function.comp_apply, List.length_map]
      exact length_pairsFrom _
    rw [hmap, ← List.map_map, List.enum_map_fst]

/-- C5. Double-counting caveat: two distinct input edges sharing both
endpoints `a ≠ b` are joined by exactly two parallel output edges (one per
shared endpoint); concretely, the dipole (three parallel edges) yields a
3-node line graph with two parallel edges between every pair, 6 in total. -/
theorem claim_double_counting [Inhabited E] (g : Graph N E) :
    (∀ i j a b, i ≠ j → a ≠ b →
      a < g.nodes.length → b < g.nodes.length →
      (∃ hi : i < g.edges.length, endpointsAre (g.edges.get ⟨i, hi⟩) a b) →
      (∃ hj : j < g.edges.length, endpointsAre (g.edges.get ⟨j, hj⟩) a b) →
      countBetween (lineGraph g) i j = 2) ∧
    (lineGraph dipole).nodes.length = 3 ∧
    (lineGraph dipole).edges.length = 6 ∧
    countBetween (lineGraph dipole) 0 1 = 2 ∧
    countBetween (lineGraph dipole) 0 2 = 2 ∧
    countBetween (lineGraph dipole) 1 2 = 2 := by
  refine ⟨?_, by decide, by decide, by decide, by decide, by decide⟩
  intro i j a b hij hab ha hb hi hj
  rcases hi with ⟨hi, hpi⟩
  rcases hj with ⟨hj, hpj⟩
  rw [countBetween_lineGraph g hij]
  unfold sharedEndpoints
  have hfil : ((List.range g.nodes.length).filter fun v =>
      ((edgeAt g i).any fun e => e.isIncident v) &&
      ((edgeAt g j).any fun e => e.isIncident v))
      = (List.range g.nodes.length).filter fun v => (v == a) || (v == b) := by
    apply List.filter_congr
    intro v _
    rw [edgeAt_eq_some hi, edgeAt_eq_some hj, Option.any_some, Option.any_some]
    have hone : ∀ e : Edge E, endpointsAre e a b →
        e.isIncident v = ((v == a) || (v == b)) := by
      intro e he
      unfold Edge.isIncident
      rcases he with ⟨h1, h2⟩ | ⟨h1, h2⟩
      · rw [h1, h2, beq_nat_comm a v, beq_nat_comm b v]
      · rw [h1, h2, beq_nat_comm a v, beq_nat_comm b v, Bool.or_comm]
    rw [hone _ hpi, hone _ hpj, Bool.and_self]
  rw [hfil, ← List.countP_eq_length_filter,
    countP_or_disjoint (fun v => v == a) (fun v => v == b) _ (by
      intro x _ hx
      exact hab ((beq_iff_eq.mp hx.1).symm.trans (beq_iff_eq.mp hx.2))),
    countP_beq_of_nodup (List.nodup_range _) a,
    countP_beq_of_nodup (List.nodup_range _) b,
    if_pos (List.mem_range.mpr ha), if_pos (List.mem_range.mpr hb)]

/-- C5 witness: two parallel edges between nodes 0 and 1 give exactly two
output edges between output nodes 0 and 1. -/
theorem claim_double_counting_witness :
    ((0 : Nat) ≠ 1 ∧ 0 < twoParallel.nodes.length ∧ 1 < twoParallel.nodes.length ∧
      (∃ hi : 0 < twoParallel.edges.length,
        endpointsAre (twoParallel.edges.get ⟨0, hi⟩) 0 1) ∧
      (∃ hj : 1 < twoParallel.edges.length,
        endpointsAre (twoParallel.edges.get ⟨1, hj⟩) 0 1)) ∧
    countBetween (lineGraph twoParallel) 0 1 = 2 :=
  ⟨⟨by decide, by decide, by decide, ⟨by decide, by decide⟩, ⟨by decide, by decide⟩⟩,
    (claim_double_counting twoParallel).1 0 1 0 1 (by decide) (by decide)
      (by decide) (by decide) ⟨by decide, by decide⟩ ⟨by decide, by decide⟩⟩

/-- C6. No self-pairing: no output edge joins an output node to itself (an
edge is never paired with itself, in particular no self-loop pairs with
itself), and a self-loop at `v` is paired exactly once with every other edge
incident to `v` (other self-loops at `v` included). -/
theorem claim_no_self_pairing [Inhabited E] (g : Graph N E) :
    (∀ o ∈ (lineGraph g).edges, o.src ≠ o.dst) ∧
    (∀ i j v, i ≠ j → v < g.nodes.length →
      (∃ hi : i < g.edges.length,
        (g.edges.get ⟨i, hi⟩).src = v ∧ (g.edges.get ⟨i, hi⟩).dst = v) →
      (∃ hj : j < g.edges.length, (g.edges.get ⟨j, hj⟩).isIncident v = true) →
      countBetween (lineGraph g) i j = 1) := by
  constructor
  · intro o ho
    rw [lineGraph_edges] at ho
    unfold lineGraphEdges at ho
    rw [List.mem_flatMap] at ho
    rcases ho with ⟨vn, hvn, ho⟩
    rw [List.mem_map] at ho
    rcases ho with ⟨pq, hpq, rfl⟩
    exact Nat.ne_of_lt (pairwise_pairsFrom (pairwise_lt_incidentIdx g vn.1) pq hpq)
  · intro i j v hij hv hi hj
    rcases hi with ⟨hi, hsrc, hdst⟩
    rcases hj with ⟨hj, hjinc⟩
    rw [countBetween_lineGraph g hij]
    unfold sharedEndpoints
    have hfil : ((List.range g.nodes.length).filter fun u =>
        ((edgeAt g i).any fun e => e.isIncident u) &&
        ((edgeAt g j).any fun e => e.isIncident u))
        = (List.range g.nodes.length).filter fun u => u == v := by
      apply List.filter_congr
      intro u _
      rw [edgeAt_eq_some hi, edgeAt_eq_some hj, Option.any_some, Option.any_some]
      by_cases huv : u = v
      · subst huv
        have h1 : (g.edges.get ⟨i, hi⟩).isIncident u = true := by
          unfold Edge.isIncident
          rw [hsrc, hdst, Bool.or_self]
          exact beq_self_eq_true u
        rw [h1, hjinc]
        simp
      · have h1 : (g.edges.get ⟨i, hi⟩).isIncident u = false := by
          unfold Edge.isIncident
          rw [hsrc, hdst, Bool.or_self]
          exact beq_eq_false_iff_ne.mpr (Ne.symm huv)
        rw [h1, Bool.false_and, beq_eq_false_iff_ne.mpr huv]
    rw [hfil, ← List.countP_eq_length_filter,
      countP_beq_of_nodup (List.nodup_range _) v,
      if_pos (List.mem_range.mpr hv)]

/-- C6 witness: two self-loops at node 0 are paired exactly once with each
other in the line graph. -/
theorem claim_no_self_pairing_witness :
    ((0 : Nat) ≠ 1 ∧ 0 < twoLoops.nodes.length ∧
      (∃ hi : 0 < twoLoops.edges.length,
        (twoLoops.edges.get ⟨0, hi⟩).src = 0 ∧ (twoLoops.edges.get ⟨0, hi⟩).dst = 0) ∧
      (∃ hj : 1 < twoLoops.edges.length,
        (twoLoops.edges.get ⟨1, hj⟩).isIncident 0 = true)) ∧
    countBetween (lineGraph twoLoops) 0 1 = 1 :=
  ⟨⟨by decide, by decide, ⟨by decide, by decide, by decide⟩, ⟨by decide, by decide⟩⟩,
    (claim_no_self_pairing twoLoops).2 0 1 0 (by decide) (by decide)
      ⟨by decide, by decide, by decide⟩ ⟨by decide, by decide⟩⟩

/-- C7. Totality: the run with every panicking operation checked (the
`add_edge` node-existence check and the `node_weight_mut(..).unwrap()`)
always returns the line graph, for every input graph; the empty graph yields
the empty output. -/
theorem claim_totality [Inhabited E] (g : Graph N E) :
    lineGraphChecked g = some (lineGraph g) ∧
    lineGraph (⟨[], []⟩ : Graph N E) = ⟨[], []⟩ :=
  ⟨lineGraphChecked_eq g, rfl⟩

/-- C8. Placeholder-overwrite invariant: pass 1 creates every output node
with the default value of `E`, pass 2 leaves the node weights untouched,
pass 3 writes each node index below `edge_count` exactly once, and the final
node weights are exactly the input edge weights. -/
theorem claim_placeholder_overwrite [Inhabited E] (g : Graph N E) :
    (pass1 g).out.nodes = List.replicate g.edges.length (default : E) ∧
    (pass2 g (pass1 g)).out.nodes = (pass1 g).out.nodes ∧
    writeIndices g = List.range g.edges.length ∧
    (∀ i, i < g.edges.length → (writeIndices g).count i = 1) ∧
    (lineGraph g).nodes = g.edges.map fun e => e.weight := by
  refine ⟨pass1_out_nodes g, pass2_out_nodes g _, ?_, ?_, lineGraph_nodes g⟩
  · unfold writeIndices
    exact List.enum_map_fst _
  · intro i hi
    unfold writeIndices
    rw [List.enum_map_fst]
    exact List.count_eq_one_of_mem (List.nodup_range _) (List.mem_range.mpr hi)

/-- C8 witness: in the triangle, output node 0 is written exactly once. -/
theorem claim_placeholder_overwrite_witness :
    0 < triangle.edges.length ∧ (writeIndices triangle).count 0 = 1 :=
  ⟨by decide, (claim_placeholder_overwrite triangle).2.2.2.1 0 (by decide)⟩

/-- C9. Purity / frame: each construction step changes only the output under
construction, never the input component, and the whole run returns the input
graph unchanged; the only effect is the new output graph. -/
theorem claim_purity_frame [Inhabited E] :
    (∀ (w : E) (s : BuildState N E), (addNode w s).inp = s.inp) ∧
    (∀ (a b : Nat) (w : N) (s : BuildState N E), (addEdge a b w s).inp = s.inp) ∧
    (∀ (i : Nat) (w : E) (s : BuildState N E), (setNodeWeight i w s).inp = s.inp) ∧
    (∀ g : Graph N E, (lineGraphRun g).inp = g) :=
  ⟨fun _ _ => rfl, fun _ _ _ _ => rfl, fun _ _ _ => rfl,
    fun g => lineGraphRun_inp g⟩

/-- C10 counterexample: the source signature returns
`UnGraph<E, N, DefaultIx>`, so an input with index parameter `u16` yields an
output whose index parameter (`u32`) differs from the input's — the output
container does not keep the input's index type parameter. -/
theorem claim_same_container_counterexample :
    (lineGraphIx (⟨⟨[0], []⟩, IndexTy.u16⟩ : GraphIx Nat Nat)).ixTy ≠
      (⟨⟨[0], []⟩, IndexTy.u16⟩ : GraphIx Nat Nat).ixTy := by
  decide

/-- C10 amended: the output is the same kind of container (an undirected
graph, node weight type `E`, edge weight type `N` — visible in the Lean type
`Graph N E → Graph E N` of `lineGraph`), but its index type parameter is
always petgraph's `DefaultIx` (`u32`), whatever the input's parameter is. -/
theorem claim_same_container_amended [Inhabited E] (g : GraphIx N E)
    (ix : IndexTy) :
    (lineGraphIx { g with ixTy := ix }).ixTy = defaultIx ∧
    (lineGraphIx g).toGraph = lineGraph g.toGraph :=
  ⟨rfl, rfl⟩

end LineGraphVerif
